import Mathlib

/-!
Verification of the candle-data coverage auditor (`src/main.rs`).

Times are UNIX epoch seconds modelled as `Int` (the Rust code uses
`chrono::DateTime<Utc>`, converting to `i64` epoch seconds via
`.timestamp()`; all comparisons in the code compare timestamps).
Resolutions are minutes modelled as `Nat` (the Rust code uses `u32`).

The Rust helper
`NaiveDate::from_ymd_opt(y, m, d).and_hms_opt(h, 0, 0)` applied to the
calendar fields of a UTC time computes the top of the hour containing
that time.  In the (leap-second-free) Unix timeline used by `chrono`,
every UTC calendar hour starts at a multiple of 3600 seconds, so this
calendar computation equals `t - t.rem_euclid(3600)`, which is
`t - t % 3600` with Lean's Euclidean `Int.emod`.
-/

/-- Top of the hour containing `t`: embeds the
`NaiveDate::from_ymd_opt(..).and_hms_opt(hour, 0, 0)` computation of
`next_normalized_time_for_resolution`. -/
def floorToHour (t : Int) : Int := t - t % 3600

/-- Loop of `next_normalized_time_for_resolution`:
`while final_time.timestamp() <= time.timestamp() { final_time += step }`.
The source guard is `cur ≤ t` alone; the conjunct `0 < step` records the
condition under which the loop terminates (for `step ≤ 0` the Rust loop
never exits; `stepUpFuel` below is the direct, fuel-indexed translation
and is used to state that divergence). -/
def stepUp (t step cur : Int) : Int :=
  if h : 0 < step ∧ cur ≤ t then stepUp t step (cur + step) else cur
termination_by (t + step - cur).toNat
decreasing_by omega

/-- Fuel-indexed direct translation of the same loop, used to reason about
termination and non-termination of the source loop itself. -/
def stepUpFuel (fuel : Nat) (t step cur : Int) : Option Int :=
  match fuel with
  | 0 => none
  | fuel + 1 => if cur ≤ t then stepUpFuel fuel t step (cur + step) else some cur

/-- Embeds `next_normalized_time_for_resolution(time, resolution_minutes)`:
floor `time` to its hour, then add `resolution_minutes` minutes until the
result exceeds `time`. -/
def nextNormalizedTimeForResolution (t : Int) (r : Nat) : Int :=
  stepUp t ((r : Int) * 60) (floorToHour t)

/-!
The candle record and the normalized response.

`ApiResult` mirrors the Rust struct of the same name (field-for-field;
the Rust field `open` is a Lean keyword and is rendered `open_`; `f64`
price values are carried as `Float`, `u64` volumes as `Nat` — the program
never computes with them, it only copies them).  `StructuredApiResult`
models the Rust `HashMap<Time, CandleData>` by an association list with
unique keys, where `insert` overwrites: its observable operations
(`lookup`, key set, `isEmpty`) coincide with the hash map's.
-/

structure ApiResult where
  s : String
  time : List Int
  close : List Float
  open_ : List Float
  high : List Float
  low : List Float
  volume : List Nat

structure CandleData where
  close : Float
  open_ : Float
  high : Float
  low : Float
  volume : Nat

/-- Association-list model of `HashMap<i64, CandleData>`: keys kept unique
by removing any previous binding on insert (last write wins). -/
def Candles := List (Int × CandleData)

def Candles.insertC (m : Candles) (k : Int) (v : CandleData) : Candles :=
  (k, v) :: List.filter (fun p => decide (p.1 ≠ k)) m

def Candles.findC (m : Candles) (k : Int) : Option CandleData :=
  List.lookup k m

def Candles.isEmptyC (m : Candles) : Bool := List.isEmpty m

def Candles.keys (m : Candles) : List Int := List.map Prod.fst m

/-- Placeholder record used only to express `Option.getD` values; the
fold below never actually reaches it on in-range indices. -/
def dummyCandle : CandleData := ⟨0, 0, 0, 0, 0⟩

/-- Cross-section at index `i`, as read by the loop body of
`impl From<ApiResult> for StructuredApiResult`: Rust's `value.close[i]`
etc. panic when `i` is out of bounds, modelled by `none`. -/
def crossSection (a : ApiResult) (i : Nat) : Option CandleData :=
  match a.close.get? i, a.open_.get? i, a.high.get? i, a.low.get? i, a.volume.get? i with
  | some c, some o, some h, some l, some v => some ⟨c, o, h, l, v⟩
  | _, _, _, _, _ => none

/-- Loop body of `impl From<ApiResult> for StructuredApiResult` at index
`i`: insert the cross-section keyed by `value.time[i]`. -/
def normStep (a : ApiResult) (m : Candles) (i : Nat) : Option Candles :=
  match a.time.get? i, crossSection a i with
  | some t, some cd => some (m.insertC t cd)
  | _, _ => none

/-- Embeds `impl From<ApiResult> for StructuredApiResult`: iterate
`value.time` by index, inserting the cross-section at each index; a panic
on an out-of-range index surfaces as `none`. -/
def structuredFromApi (a : ApiResult) : Option Candles :=
  (List.range a.time.length).foldlM (normStep a) ([] : Candles)

/-- Timestamp at index `i` (meaningful when `i` is in range). -/
def timeAt (a : ApiResult) (i : Nat) : Int := (a.time.get? i).getD 0

/-- Cross-section record at index `i` (meaningful when `crossSection`
succeeds there). -/
def csAt (a : ApiResult) (i : Nat) : CandleData := (crossSection a i).getD dummyCandle

/-- Successful unrolling of the normalizing fold over the first `n`
indices (what the fold computes when no index is out of range). -/
def buildCandles (a : ApiResult) : Nat → Candles
  | 0 => []
  | n + 1 => (buildCandles a n).insertC (timeAt a n) (csAt a n)

inductive Verdict where
  | present
  | absent
deriving DecidableEq, Repr

/-- Loop of `test_api_for_period`:
`while next_normalized_time < to_utc { emit verdict; advance }`.
As with `stepUp`, the termination-relevant fact `0 < r` is recorded in
the guard (for `r = 0` the inner step loop already diverges). -/
def auditLoop (toT : Int) (r : Nat) (m : Candles) (cur : Int) : List (Int × Verdict) :=
  if h : 0 < r ∧ cur < toT then
    (cur, if (m.findC cur).isSome then Verdict.present else Verdict.absent) ::
      auditLoop toT r m (nextNormalizedTimeForResolution cur r)
  else []
termination_by (toT - cur).toNat
decreasing_by
  have hs : (0 : Int) < (r : Int) * 60 :=
    mul_pos (by exact_mod_cast h.1) (by norm_num)
  have hgt : ∀ c : Int, cur < stepUp cur ((r : Int) * 60) c := by
    intro c
    induction c using stepUp.induct cur ((r : Int) * 60) with
    | case1 c hh ih => rw [stepUp, dif_pos hh]; exact ih
    | case2 c hh =>
      rw [stepUp, dif_neg hh]
      push_neg at hh
      exact hh hs
  have hcur := hgt (floorToHour cur)
  simp only [nextNormalizedTimeForResolution]
  omega

/-- The timestamps the audit loop visits, starting from `cur` (the spec's
expected-timestamp enumerator, continued). -/
def expectedFrom (toT : Int) (r : Nat) (cur : Int) : List Int :=
  if h : 0 < r ∧ cur < toT then
    cur :: expectedFrom toT r (nextNormalizedTimeForResolution cur r)
  else []
termination_by (toT - cur).toNat
decreasing_by
  have hs : (0 : Int) < (r : Int) * 60 :=
    mul_pos (by exact_mod_cast h.1) (by norm_num)
  have hgt : ∀ c : Int, cur < stepUp cur ((r : Int) * 60) c := by
    intro c
    induction c using stepUp.induct cur ((r : Int) * 60) with
    | case1 c hh ih => rw [stepUp, dif_pos hh]; exact ih
    | case2 c hh =>
      rw [stepUp, dif_neg hh]
      push_neg at hh
      exact hh hs
  have hcur := hgt (floorToHour cur)
  simp only [nextNormalizedTimeForResolution]
  omega

/-- The expected-timestamp enumerator of the spec, as realised by
`test_api_for_period`: seed with one step from `from`, then continue
while strictly below `to`. -/
def expectedTimestamps (fromT toT : Int) (r : Nat) : List Int :=
  expectedFrom toT r (nextNormalizedTimeForResolution fromT r)

/-- Embeds the body of `test_api_for_period` after the HTTP fetch: on an
empty normalized response return without verdicts, otherwise run the
audit loop from the first normalized time after `from`. -/
def testApiForPeriod (r : Nat) (fromT toT : Int) (m : Candles) : List (Int × Verdict) :=
  if m.isEmptyC then []
  else auditLoop toT r m (nextNormalizedTimeForResolution fromT r)

/-- Fuel-indexed direct translation of the audit loop of
`test_api_for_period`, used to state that the loop terminates. -/
def auditLoopFuel (fuel : Nat) (toT : Int) (r : Nat) (m : Candles) (cur : Int) :
    Option (List (Int × Verdict)) :=
  match fuel with
  | 0 => none
  | fuel + 1 =>
    if cur < toT then
      (auditLoopFuel fuel toT r m (nextNormalizedTimeForResolution cur r)).map
        (fun rest =>
          (cur, if (m.findC cur).isSome then Verdict.present else Verdict.absent) :: rest)
    else some []

/-- Raw response with sequences of unequal length (`time` shorter than
the five value columns), used to exercise the normalizer's behavior on
malformed input. -/
def rawUnequal : ApiResult :=
  ⟨"ok", [0], [1, 2], [3, 4], [5, 6], [7, 8], [9, 11]⟩

/-- Well-formed two-candle raw response used to instantiate round-trip
statements on concrete data. -/
def rawTwo : ApiResult :=
  ⟨"ok", [10, 20], [1, 2], [3, 4], [5, 6], [7, 8], [9, 11]⟩

/-! Theorems. -/

theorem floorToHour_le (t : Int) : floorToHour t ≤ t := by
  have := Int.emod_nonneg t (by norm_num : (3600 : Int) ≠ 0)
  simp only [floorToHour]
  omega

theorem lt_floorToHour_add (t : Int) : t < floorToHour t + 3600 := by
  have := Int.emod_lt_of_pos t (by norm_num : (0 : Int) < 3600)
  simp only [floorToHour]
  omega

theorem floorToHour_emod (t : Int) : floorToHour t % 3600 = 0 := by
  simp [floorToHour, Int.sub_emod, Int.emod_emod_of_dvd]

/-- The loop result exceeds `t` whenever the step is positive. -/
theorem stepUp_gt (t step : Int) (hs : 0 < step) :
    ∀ cur : Int, t < stepUp t step cur := by
  intro cur
  induction cur using stepUp.induct t step with
  | case1 cur h ih =>
    rw [stepUp, dif_pos h]
    exact ih
  | case2 cur h =>
    rw [stepUp, dif_neg h]
    push_neg at h
    exact h hs

/-- The loop result is reached from `cur` by a whole number of steps,
at least one step when the loop body runs at all. -/
theorem stepUp_exists_k (t step : Int) (hs : 0 < step) :
    ∀ cur : Int, ∃ k : Nat, stepUp t step cur = cur + (k : Int) * step ∧
      (cur ≤ t → 1 ≤ k) := by
  intro cur
  induction cur using stepUp.induct t step with
  | case1 cur h ih =>
    rw [stepUp, dif_pos h]
    obtain ⟨k, hk, _⟩ := ih
    exact ⟨k + 1, by push_cast; linarith [hk], fun _ => by omega⟩
  | case2 cur h =>
    rw [stepUp, dif_neg h]
    push_neg at h
    exact ⟨0, by ring_nf, fun hc => absurd (h hs) (by omega)⟩

/-- The loop overshoots `t` by at most one step. -/
theorem stepUp_le (t step : Int) (hs : 0 < step) :
    ∀ cur : Int, cur ≤ t → stepUp t step cur ≤ t + step := by
  intro cur
  induction cur using stepUp.induct t step with
  | case1 cur h ih =>
    intro _
    rw [stepUp, dif_pos h]
    by_cases hc : cur + step ≤ t
    · exact ih hc
    · rw [stepUp, dif_neg (by push_neg; intro _; omega)]
      omega
  | case2 cur h =>
    intro hc
    exact absurd ⟨hs, hc⟩ h

/-- Any value congruent to `cur` modulo `step` lying in `(t, t + step]` is
the loop's result: the loop computes the least such value. -/
theorem stepUp_unique (t step : Int) (hs : 0 < step) :
    ∀ cur x : Int, cur ≤ t + step → t < x → x ≤ t + step →
      (∃ k : Nat, x = cur + (k : Int) * step) → stepUp t step cur = x := by
  intro cur
  induction cur using stepUp.induct t step with
  | case1 cur h ih =>
    intro x _ hx1 hx2 ⟨k, hk⟩
    rw [stepUp, dif_pos h]
    refine ih x (by omega) hx1 hx2 ⟨k - 1, ?_⟩
    have hk1 : 1 ≤ k := by
      rcases Nat.eq_zero_or_pos k with h0 | h1
      · subst h0; simp at hk; omega
      · exact h1
    push_cast [hk1]
    linarith [hk]
  | case2 cur h =>
    intro x hcur hx1 hx2 ⟨k, hk⟩
    rw [stepUp, dif_neg h]
    push_neg at h
    have hcur' : t < cur := h hs
    have hk0 : k = 0 := by nlinarith [hk, hx1, hx2, hcur', hcur]
    subst hk0; simp at hk; omega

/-- Closed form of `next_normalized_time_for_resolution` for a positive
resolution: one more whole `r·60` step past the offset of `t` in its hour. -/
theorem nextNormalizedTime_eq (t : Int) (r : Nat) (hr : 0 < r) :
    nextNormalizedTimeForResolution t r =
      floorToHour t + (((t % 3600).toNat / (r * 60) : Nat) + 1) * ((r : Int) * 60) := by
  have hs : (0 : Int) < (r : Int) * 60 := by positivity
  have hmod : (0 : Int) ≤ t % 3600 := Int.emod_nonneg t (by norm_num)
  have hdm := Nat.div_add_mod (t % 3600).toNat (r * 60)
  have hml := Nat.mod_lt (t % 3600).toNat (show 0 < r * 60 by positivity)
  have hq1 : ((t % 3600).toNat / (r * 60)) * (r * 60) ≤ (t % 3600).toNat :=
    Nat.div_mul_le_self _ _
  have hq2 : (t % 3600).toNat < ((t % 3600).toNat / (r * 60) + 1) * (r * 60) := by
    nlinarith [hdm, hml]
  have hcast : ((t % 3600).toNat : Int) = t % 3600 := Int.toNat_of_nonneg hmod
  have hq1' : (((t % 3600).toNat / (r * 60) : Nat) : Int) * ((r : Int) * 60) ≤ t % 3600 := by
    calc (((t % 3600).toNat / (r * 60) : Nat) : Int) * ((r : Int) * 60)
        = ((((t % 3600).toNat / (r * 60)) * (r * 60) : Nat) : Int) := by push_cast; ring
      _ ≤ ((t % 3600).toNat : Int) := by exact_mod_cast hq1
      _ = t % 3600 := hcast
  have hq2' : t % 3600 <
      ((((t % 3600).toNat / (r * 60) : Nat) : Int) + 1) * ((r : Int) * 60) := by
    calc t % 3600 = ((t % 3600).toNat : Int) := hcast.symm
      _ < ((((t % 3600).toNat / (r * 60) + 1) * (r * 60) : Nat) : Int) := by exact_mod_cast hq2
      _ = ((((t % 3600).toNat / (r * 60) : Nat) : Int) + 1) * ((r : Int) * 60) := by
          push_cast; ring
  have hfloor : floorToHour t = t - t % 3600 := rfl
  refine stepUp_unique t ((r : Int) * 60) hs (floorToHour t) _
    (by linarith) (by linarith) (by linarith)
    ⟨(t % 3600).toNat / (r * 60) + 1, by push_cast; ring⟩

/-- The step function strictly advances time (positive resolution). -/
theorem nextNormalizedTime_gt (t : Int) (r : Nat) (hr : 0 < r) :
    t < nextNormalizedTimeForResolution t r :=
  stepUp_gt t _ (by positivity) (floorToHour t)

/-- The step function advances by at most one resolution interval. -/
theorem nextNormalizedTime_le (t : Int) (r : Nat) (hr : 0 < r) :
    nextNormalizedTimeForResolution t r ≤ t + (r : Int) * 60 :=
  stepUp_le t _ (by positivity) (floorToHour t) (floorToHour_le t)

/-- The step result sits a positive whole number of resolution intervals
past the hour floor of its argument. -/
theorem nextNormalizedTime_anchor (t : Int) (r : Nat) (hr : 0 < r) :
    ∃ k : Nat, 1 ≤ k ∧
      nextNormalizedTimeForResolution t r = floorToHour t + (k : Int) * ((r : Int) * 60) := by
  obtain ⟨k, hk, hk1⟩ := stepUp_exists_k t ((r : Int) * 60) (by positivity) (floorToHour t)
  exact ⟨k, hk1 (floorToHour_le t), hk⟩

/-- The audit loop emits exactly one verdict at each enumerated timestamp,
`present` precisely at keys of the map. -/
theorem auditLoop_eq_map (toT : Int) (r : Nat) (m : Candles) :
    ∀ cur : Int, auditLoop toT r m cur =
      (expectedFrom toT r cur).map
        (fun t => (t, if (m.findC t).isSome then Verdict.present else Verdict.absent)) := by
  intro cur
  induction cur using expectedFrom.induct toT r with
  | case1 cur h ih =>
    rw [auditLoop, dif_pos h, expectedFrom, dif_pos h]
    simp [ih]
  | case2 cur h =>
    rw [auditLoop, dif_neg h, expectedFrom, dif_neg h]
    simp

theorem expectedFrom_head? (toT : Int) (r : Nat) (cur x : Int)
    (hx : x ∈ (expectedFrom toT r cur).head?) : x = cur := by
  rw [expectedFrom] at hx
  by_cases h : 0 < r ∧ cur < toT
  · rw [dif_pos h] at hx
    simp at hx
    omega
  · rw [dif_neg h] at hx
    simp at hx

/-- Every enumerated timestamp lies at or after the start point and
strictly before the right bound. -/
theorem expectedFrom_mem_bounds (toT : Int) (r : Nat) (hr : 0 < r) :
    ∀ cur : Int, ∀ t ∈ expectedFrom toT r cur, cur ≤ t ∧ t < toT := by
  intro cur
  induction cur using expectedFrom.induct toT r with
  | case1 cur h ih =>
    intro t ht
    rw [expectedFrom, dif_pos h] at ht
    rcases List.mem_cons.mp ht with rfl | ht
    · exact ⟨le_refl _, h.2⟩
    · have hb := ih t ht
      have hg := nextNormalizedTime_gt cur r hr
      exact ⟨by omega, hb.2⟩
  | case2 cur h =>
    intro t ht
    rw [expectedFrom, dif_neg h] at ht
    simp at ht

/-- Consecutive enumerated timestamps are linked by the step function. -/
theorem expectedFrom_chain_step (toT : Int) (r : Nat) :
    ∀ cur : Int, List.Chain'
      (fun a b => b = nextNormalizedTimeForResolution a r) (expectedFrom toT r cur) := by
  intro cur
  induction cur using expectedFrom.induct toT r with
  | case1 cur h ih =>
    rw [expectedFrom, dif_pos h]
    refine List.chain'_cons'.mpr ⟨?_, ih⟩
    intro y hy
    exact expectedFrom_head? toT r _ y hy
  | case2 cur h =>
    rw [expectedFrom, dif_neg h]
    exact List.chain'_nil

/-- Consecutive enumerated timestamps are strictly increasing and at most
one resolution interval apart. -/
theorem expectedFrom_chain_lt (toT : Int) (r : Nat) (hr : 0 < r) (cur : Int) :
    List.Chain' (fun a b => a < b ∧ b ≤ a + (r : Int) * 60) (expectedFrom toT r cur) := by
  refine (expectedFrom_chain_step toT r cur).imp ?_
  intro a b hab
  subst hab
  exact ⟨nextNormalizedTime_gt a r hr, nextNormalizedTime_le a r hr⟩

/-- With a resolution dividing 60, the step from a resolution-aligned time
is exactly one interval. -/
theorem nextNormalizedTime_aligned (t : Int) (r : Nat) (hr : 0 < r) (hd : r ∣ 60)
    (ha : t % ((r : Int) * 60) = 0) :
    nextNormalizedTimeForResolution t r = t + (r : Int) * 60 := by
  have hs : (0 : Int) < (r : Int) * 60 := by positivity
  have hdvd : ((r : Int) * 60) ∣ 3600 := by
    obtain ⟨c, hc⟩ := hd
    refine ⟨(c : Int), ?_⟩
    have hc' : (60 : Int) = (r : Int) * (c : Int) := by exact_mod_cast hc
    linear_combination 60 * hc'
  have hmod : (0 : Int) ≤ t % 3600 := Int.emod_nonneg t (by norm_num)
  have hdd : ((r : Int) * 60) ∣ t % 3600 := by
    have hee := Int.emod_emod_of_dvd t hdvd
    exact Int.dvd_of_emod_eq_zero (by rw [hee, ha])
  obtain ⟨c, hc⟩ := hdd
  have hc0 : 0 ≤ c := by nlinarith [hmod, hc, hs]
  have hfloor : floorToHour t = t - t % 3600 := rfl
  refine stepUp_unique t ((r : Int) * 60) hs (floorToHour t) _
    (by linarith) (by linarith) (by linarith)
    ⟨c.toNat + 1, ?_⟩
  rw [hfloor, hc]
  push_cast [Int.toNat_of_nonneg hc0]
  ring

/-- With a resolution dividing 60, every enumerated timestamp starting
from an aligned point is aligned and consecutive ones differ by exactly
`r·60`. -/
theorem expectedFrom_chain_exact (toT : Int) (r : Nat) (hr : 0 < r) (hd : r ∣ 60) :
    ∀ cur : Int, cur % ((r : Int) * 60) = 0 →
      List.Chain' (fun a b => b = a + (r : Int) * 60) (expectedFrom toT r cur) := by
  intro cur
  induction cur using expectedFrom.induct toT r with
  | case1 cur h ih =>
    intro ha
    rw [expectedFrom, dif_pos h]
    have hnext : nextNormalizedTimeForResolution cur r = cur + (r : Int) * 60 :=
      nextNormalizedTime_aligned cur r hr hd ha
    have ha' : (cur + (r : Int) * 60) % ((r : Int) * 60) = 0 := by
      rw [Int.add_emod, ha, Int.emod_self]
      simp
    refine List.chain'_cons'.mpr ⟨?_, by rw [hnext] at ih ⊢; exact ih ha'⟩
    intro y hy
    have := expectedFrom_head? toT r _ y hy
    rw [this, hnext]
  | case2 cur h =>
    intro _
    rw [expectedFrom, dif_neg h]
    exact List.chain'_nil

/-!
Concrete trace of scenario S5 of the spec: `from = 2024-05-13T10:00:00Z`
(epoch 1715594400, an equality asserted by `static_inspect` in the
source), `to = 2024-05-13T12:30:00Z` (1715603400), resolution 45 minutes.
The epoch values 1715597100, 1715599800, 1715600700, 1715602500 are
10:45, 11:30, 11:45 and 12:15 on that date.
-/

theorem nextNorm_s5_step1 :
    nextNormalizedTimeForResolution 1715594400 45 = 1715597100 := by
  rw [nextNormalizedTime_eq 1715594400 45 (by norm_num)]
  norm_num [floorToHour]

theorem nextNorm_s5_step2 :
    nextNormalizedTimeForResolution 1715597100 45 = 1715599800 := by
  rw [nextNormalizedTime_eq 1715597100 45 (by norm_num)]
  norm_num [floorToHour]

theorem nextNorm_s5_step3 :
    nextNormalizedTimeForResolution 1715599800 45 = 1715600700 := by
  rw [nextNormalizedTime_eq 1715599800 45 (by norm_num)]
  norm_num [floorToHour]

theorem nextNorm_s5_step4 :
    nextNormalizedTimeForResolution 1715600700 45 = 1715603400 := by
  rw [nextNormalizedTime_eq 1715600700 45 (by norm_num)]
  norm_num [floorToHour]

/-- Trace of the enumerator on scenario S5: the code yields
10:45, 11:30, 11:45 — the third yield is re-anchored to 11:00,
the hour floor of the previous yield 11:30. -/
theorem expected_s5_eval : expectedTimestamps 1715594400 1715603400 45 =
    [1715597100, 1715599800, 1715600700] := by
  rw [expectedTimestamps, nextNorm_s5_step1,
    expectedFrom, dif_pos (by norm_num : (0 : Nat) < 45 ∧ (1715597100 : Int) < 1715603400),
    nextNorm_s5_step2,
    expectedFrom, dif_pos (by norm_num : (0 : Nat) < 45 ∧ (1715599800 : Int) < 1715603400),
    nextNorm_s5_step3,
    expectedFrom, dif_pos (by norm_num : (0 : Nat) < 45 ∧ (1715600700 : Int) < 1715603400),
    nextNorm_s5_step4,
    expectedFrom, dif_neg (by norm_num : ¬((0 : Nat) < 45 ∧ (1715603400 : Int) < 1715603400))]


/-! Lemmas on the association-list model of the normalized response. -/

theorem get?_isSome_iff {α : Type} (l : List α) (i : Nat) :
    (l.get? i).isSome = true ↔ i < l.length := by
  rw [Option.isSome_iff_ne_none, ne_eq, List.get?_eq_none]
  omega

theorem timeAt_eq_get (a : ApiResult) (i : Nat) (h : i < a.time.length) :
    timeAt a i = a.time.get ⟨i, h⟩ := by
  rw [timeAt, List.get?_eq_get h]
  rfl

theorem mem_time_iff (a : ApiResult) (k : Int) :
    k ∈ a.time ↔ ∃ i, i < a.time.length ∧ timeAt a i = k := by
  rw [List.mem_iff_get?]
  constructor
  · rintro ⟨n, hn⟩
    have hlt : n < a.time.length := by
      by_contra hge
      rw [List.get?_eq_none.mpr (by omega)] at hn
      exact Option.noConfusion hn
    exact ⟨n, hlt, by rw [timeAt, hn]; rfl⟩
  · rintro ⟨i, hi, hgd⟩
    refine ⟨i, ?_⟩
    rw [List.get?_eq_get hi]
    rw [timeAt_eq_get a i hi] at hgd
    rw [hgd]

theorem lookup_filter_ne (k k' : Int) (h : k' ≠ k) :
    ∀ m : List (Int × CandleData),
      List.lookup k' (List.filter (fun p => decide (p.1 ≠ k)) m) = List.lookup k' m := by
  intro m
  induction m with
  | nil => rfl
  | cons p m ih =>
    obtain ⟨k1, v1⟩ := p
    rw [List.filter_cons]
    by_cases hp : k1 = k
    · subst hp
      rw [if_neg (by simp)]
      rw [ih, List.lookup_cons]
      rw [show (k' == k1) = false by simp [h]]
    · rw [if_pos (by simp [hp])]
      rw [List.lookup_cons, List.lookup_cons]
      cases hbe : k' == k1
      · simp only []
        rw [ih]
      · rfl

theorem findC_insertC (m : Candles) (k : Int) (v : CandleData) (k' : Int) :
    (m.insertC k v).findC k' = if k' = k then some v else m.findC k' := by
  show List.lookup k' ((k, v) :: List.filter (fun p => decide (p.1 ≠ k)) m) = _
  rw [List.lookup_cons]
  by_cases h : k' = k
  · rw [show (k' == k) = true by simp [h], if_pos h]
  · rw [show (k' == k) = false by simp [h], if_neg h]
    exact lookup_filter_ne k k' h m

theorem keys_insertC (m : Candles) (k : Int) (v : CandleData) (k' : Int) :
    k' ∈ (m.insertC k v).keys ↔ k' = k ∨ k' ∈ m.keys := by
  show k' ∈ List.map Prod.fst ((k, v) :: List.filter (fun p => decide (p.1 ≠ k)) m) ↔ _
  rw [List.map_cons, List.mem_cons]
  constructor
  · rintro (rfl | hmem)
    · exact Or.inl rfl
    · obtain ⟨p, hp, hpk⟩ := List.mem_map.mp hmem
      exact Or.inr (List.mem_map.mpr ⟨p, (List.mem_filter.mp hp).1, hpk⟩)
  · rintro (rfl | hmem)
    · exact Or.inl rfl
    · by_cases hk : k' = k
      · exact Or.inl hk
      · obtain ⟨p, hp, hpk⟩ := List.mem_map.mp hmem
        refine Or.inr (List.mem_map.mpr ⟨p, List.mem_filter.mpr ⟨hp, ?_⟩, hpk⟩)
        simp [hpk, hk]

theorem normStep_isSome_iff (a : ApiResult) (m : Candles) (i : Nat) :
    (normStep a m i).isSome = true ↔
      ((a.time.get? i).isSome = true ∧ (crossSection a i).isSome = true) := by
  unfold normStep
  cases ht : a.time.get? i <;> cases hc : crossSection a i <;> simp

theorem normStep_eq (a : ApiResult) (m : Candles) (i : Nat)
    (ht : i < a.time.length) (hcs : (crossSection a i).isSome = true) :
    normStep a m i = some (m.insertC (timeAt a i) (csAt a i)) := by
  unfold normStep
  obtain ⟨cd, hcd⟩ := Option.isSome_iff_exists.mp hcs
  cases hh : a.time.get? i with
  | none =>
    rw [List.get?_eq_none] at hh
    omega
  | some x =>
    rw [hcd]
    have h1 : timeAt a i = x := by rw [timeAt, hh]; rfl
    have h2 : csAt a i = cd := by rw [csAt, hcd]; rfl
    rw [h1, h2]

theorem crossSection_isSome_iff (a : ApiResult) (i : Nat) :
    (crossSection a i).isSome = true ↔
      (i < a.close.length ∧ i < a.open_.length ∧ i < a.high.length ∧
       i < a.low.length ∧ i < a.volume.length) := by
  unfold crossSection
  rcases hc : a.close.get? i with _ | c <;> rcases ho : a.open_.get? i with _ | o <;>
    rcases hh : a.high.get? i with _ | h <;> rcases hl : a.low.get? i with _ | l <;>
    rcases hv : a.volume.get? i with _ | v <;>
    simp_all [← get?_isSome_iff]

theorem foldlM_range_succ {α : Type} (f : α → Nat → Option α) (n : Nat) (m : α) :
    (List.range (n + 1)).foldlM f m =
      (List.range n).foldlM f m >>= fun m2 => f m2 n := by
  rw [List.range_succ, List.foldlM_append]
  simp

/-- When every index is in range, the normalizing fold succeeds and
computes the iterated insert. -/
theorem normFold_some (a : ApiResult) :
    ∀ n, (∀ i, i < n → i < a.time.length ∧ (crossSection a i).isSome = true) →
      (List.range n).foldlM (normStep a) ([] : Candles) = some (buildCandles a n) := by
  intro n
  induction n with
  | zero => intro _; rfl
  | succ n ih =>
    intro h
    rw [foldlM_range_succ, ih (fun i hi => h i (by omega))]
    show normStep a (buildCandles a n) n = some (buildCandles a (n + 1))
    rw [normStep_eq a _ n (h n (by omega)).1 (h n (by omega)).2]
    rfl

/-- The normalizing fold succeeds exactly when every index visited is in
range in every column. -/
theorem normFold_isSome (a : ApiResult) :
    ∀ n, ((List.range n).foldlM (normStep a) ([] : Candles)).isSome = true ↔
      ∀ i, i < n → ((a.time.get? i).isSome = true ∧ (crossSection a i).isSome = true) := by
  intro n
  induction n with
  | zero => simp
  | succ n ih =>
    rw [foldlM_range_succ]
    cases hf : (List.range n).foldlM (normStep a) ([] : Candles) with
    | none =>
      have hb : ((none : Option Candles) >>= fun m2 => normStep a m2 n) = none := rfl
      rw [hb]
      simp only [Option.isSome_none, Bool.false_eq_true, false_iff]
      intro hall
      have hsome : ((List.range n).foldlM (normStep a) ([] : Candles)).isSome = true :=
        ih.mpr (fun i hi => hall i (by omega))
      rw [hf] at hsome
      exact Bool.noConfusion hsome
    | some m =>
      have hb : (some m >>= fun m2 => normStep a m2 n) = normStep a m n := rfl
      rw [hb]
      have hprev : ∀ i, i < n →
          ((a.time.get? i).isSome = true ∧ (crossSection a i).isSome = true) :=
        ih.mp (by rw [hf]; rfl)
      rw [normStep_isSome_iff]
      constructor
      · intro hns i hi
        rcases Nat.lt_succ_iff_lt_or_eq.mp hi with hlt | rfl
        · exact hprev i hlt
        · exact hns
      · intro hall
        exact hall n (by omega)

/-- Looking up the timestamp at an index whose value does not recur later
returns that index's cross-section (last write wins). -/
theorem buildCandles_findC (a : ApiResult) :
    ∀ n i, i < n →
      (∀ j, i < j → j < n → timeAt a j ≠ timeAt a i) →
      (buildCandles a n).findC (timeAt a i) = some (csAt a i) := by
  intro n
  induction n with
  | zero => intro i hi _; exact absurd hi (by omega)
  | succ n ih =>
    intro i hi hlast
    show ((buildCandles a n).insertC (timeAt a n) (csAt a n)).findC (timeAt a i) = _
    rw [findC_insertC]
    by_cases hin : i = n
    · subst hin
      rw [if_pos rfl]
    · have hi' : i < n := by omega
      have hne : timeAt a i ≠ timeAt a n :=
        fun he => hlast n (by omega) (by omega) he.symm
      rw [if_neg hne]
      exact ih i hi' (fun j hj1 hj2 => hlast j hj1 (by omega))

/-- The keys of the built map are exactly the first `n` timestamps. -/
theorem buildCandles_keys (a : ApiResult) :
    ∀ n k, k ∈ (buildCandles a n).keys ↔ ∃ i, i < n ∧ timeAt a i = k := by
  intro n
  induction n with
  | zero =>
    intro k
    constructor
    · intro hk
      exact absurd hk (List.not_mem_nil k)
    · rintro ⟨i, hi, _⟩
      exact absurd hi (by omega)
  | succ n ih =>
    intro k
    have hs : k ∈ (buildCandles a (n + 1)).keys ↔
        k = timeAt a n ∨ k ∈ (buildCandles a n).keys :=
      keys_insertC (buildCandles a n) (timeAt a n) (csAt a n) k
    rw [hs, ih]
    constructor
    · rintro (rfl | ⟨i, hi, hk⟩)
      · exact ⟨n, by omega, rfl⟩
      · exact ⟨i, by omega, hk⟩
    · rintro ⟨i, hi, hk⟩
      by_cases hin : i = n
      · subst hin
        exact Or.inl hk.symm
      · exact Or.inr ⟨i, by omega, hk⟩

/-- Cross-section value at an in-range index, in terms of `List.get`. -/
theorem crossSection_eq_get (a : ApiResult) (i : Nat)
    (hc : i < a.close.length) (ho : i < a.open_.length) (hh : i < a.high.length)
    (hl : i < a.low.length) (hv : i < a.volume.length) :
    crossSection a i = some ⟨a.close.get ⟨i, hc⟩, a.open_.get ⟨i, ho⟩,
      a.high.get ⟨i, hh⟩, a.low.get ⟨i, hl⟩, a.volume.get ⟨i, hv⟩⟩ := by
  unfold crossSection
  rw [List.get?_eq_get hc, List.get?_eq_get ho, List.get?_eq_get hh,
    List.get?_eq_get hl, List.get?_eq_get hv]

/-! Remaining helper lemmas for the claim theorems. -/

/-- For a positive step, some fuel suffices for the fuel-indexed loop to
return the total loop's result. -/
theorem stepUpFuel_some (t step : Int) (hs : 0 < step) :
    ∀ cur, ∃ n, stepUpFuel n t step cur = some (stepUp t step cur) := by
  intro cur
  induction cur using stepUp.induct t step with
  | case1 cur h ih =>
    obtain ⟨n, hn⟩ := ih
    refine ⟨n + 1, ?_⟩
    rw [stepUp, dif_pos h]
    show (if cur ≤ t then stepUpFuel n t step (cur + step) else some cur) = _
    rw [if_pos h.2, hn]
  | case2 cur h =>
    refine ⟨1, ?_⟩
    rw [stepUp, dif_neg h]
    push_neg at h
    show (if cur ≤ t then stepUpFuel 0 t step (cur + step) else some cur) = some cur
    rw [if_neg (by have := h hs; omega)]

/-- With a zero step the loop never exits: no amount of fuel returns. -/
theorem stepUpFuel_zero_none (t : Int) :
    ∀ n cur, cur ≤ t → stepUpFuel n t 0 cur = none := by
  intro n
  induction n with
  | zero => intro cur _; rfl
  | succ n ih =>
    intro cur hc
    show (if cur ≤ t then stepUpFuel n t 0 (cur + 0) else some cur) = none
    rw [if_pos hc, show cur + (0 : Int) = cur by ring]
    exact ih cur hc

/-- For a positive resolution, some fuel suffices for the fuel-indexed
audit loop to return the total loop's result. -/
theorem auditLoopFuel_some (toT : Int) (r : Nat) (hr : 0 < r) (m : Candles) :
    ∀ cur, ∃ n, auditLoopFuel n toT r m cur = some (auditLoop toT r m cur) := by
  intro cur
  induction cur using auditLoop.induct toT r m with
  | case1 cur h ih =>
    obtain ⟨n, hn⟩ := ih
    refine ⟨n + 1, ?_⟩
    rw [auditLoop, dif_pos h]
    show (if cur < toT then
        (auditLoopFuel n toT r m (nextNormalizedTimeForResolution cur r)).map _
      else some []) = _
    rw [if_pos h.2, hn]
    rfl
  | case2 cur h =>
    refine ⟨1, ?_⟩
    rw [auditLoop, dif_neg h]
    by_cases hc : cur < toT
    · exact absurd ⟨hr, hc⟩ h
    · show (if cur < toT then
          (auditLoopFuel 0 toT r m (nextNormalizedTimeForResolution cur r)).map _
        else some []) = some []
      rw [if_neg hc]

/-- Looking up the timestamp at index `i` in the fully built map returns
the cross-section of `i` when the timestamp does not recur later, for a
well-formed response (all columns as long as `time`). -/
theorem buildCandles_lookup_get (a : ApiResult)
    (hc : a.close.length = a.time.length) (ho : a.open_.length = a.time.length)
    (hhi : a.high.length = a.time.length) (hl : a.low.length = a.time.length)
    (hv : a.volume.length = a.time.length)
    (i : Nat) (hi : i < a.time.length)
    (hlast : ∀ j, ∀ hj : j < a.time.length, i < j →
      a.time.get ⟨j, hj⟩ ≠ a.time.get ⟨i, hi⟩) :
    (buildCandles a a.time.length).findC (a.time.get ⟨i, hi⟩) =
      some ⟨a.close.get ⟨i, by omega⟩, a.open_.get ⟨i, by omega⟩,
            a.high.get ⟨i, by omega⟩, a.low.get ⟨i, by omega⟩,
            a.volume.get ⟨i, by omega⟩⟩ := by
  have hfind := buildCandles_findC a a.time.length i hi ?_
  · rw [timeAt_eq_get a i hi] at hfind
    have hcsv : csAt a i = ⟨a.close.get ⟨i, by omega⟩, a.open_.get ⟨i, by omega⟩,
        a.high.get ⟨i, by omega⟩, a.low.get ⟨i, by omega⟩,
        a.volume.get ⟨i, by omega⟩⟩ := by
      rw [csAt, crossSection_eq_get a i (by omega) (by omega) (by omega) (by omega) (by omega)]
      rfl
    rw [hfind, hcsv]
  · intro j hij hjlen
    rw [timeAt_eq_get a j hjlen, timeAt_eq_get a i hi]
    exact hlast j hjlen hij

/-! Claim theorems. -/

/-- C3: for every window `(from, to)` with `from ≤ to` and positive
resolution, every yielded timestamp `t` satisfies `from < t < to`; when
`from = to` the yielded sequence is empty. -/
theorem claim_C3 (fromT toT : Int) (r : Nat) (hr : 0 < r) (hft : fromT ≤ toT) :
    (∀ t ∈ expectedTimestamps fromT toT r, fromT < t ∧ t < toT) ∧
    (fromT = toT → expectedTimestamps fromT toT r = []) := by
  constructor
  · intro t ht
    have hb := expectedFrom_mem_bounds toT r hr _ t ht
    have hg := nextNormalizedTime_gt fromT r hr
    exact ⟨by omega, hb.2⟩
  · intro he
    subst he
    rw [expectedTimestamps, expectedFrom, dif_neg]
    push_neg
    intro _
    have hg := nextNormalizedTime_gt fromT r hr
    omega

/-- Witness for C3 at `from = 0`, `to = 3600`, `r = 60`. -/
theorem claim_C3_witness :
    (∀ t ∈ expectedTimestamps 0 3600 60, (0 : Int) < t ∧ t < 3600) ∧
    ((0 : Int) = 3600 → expectedTimestamps 0 3600 60 = []) :=
  claim_C3 0 3600 60 (by norm_num) (by norm_num)

/-- C4: the first yielded timestamp is strictly greater than `from`, and
its distance from `floor_to_hour(from)` is a positive whole multiple of
`r·60` seconds. -/
theorem claim_C4 (fromT toT : Int) (r : Nat) (hr : 0 < r) (t : Int)
    (hh : (expectedTimestamps fromT toT r).head? = some t) :
    fromT < t ∧ ∃ k : Nat, 1 ≤ k ∧
      t - floorToHour fromT = (k : Int) * ((r : Int) * 60) := by
  have ht : t = nextNormalizedTimeForResolution fromT r :=
    expectedFrom_head? toT r _ t (by rw [Option.mem_def]; exact hh)
  subst ht
  refine ⟨nextNormalizedTime_gt fromT r hr, ?_⟩
  obtain ⟨k, hk1, hk⟩ := nextNormalizedTime_anchor fromT r hr
  exact ⟨k, hk1, by linarith [hk]⟩

/-- Witness for C4 at `from = 0`, `to = 7200`, `r = 60`: the first yield
is 3600. -/
theorem claim_C4_witness :
    (0 : Int) < 3600 ∧ ∃ k : Nat, 1 ≤ k ∧
      (3600 : Int) - floorToHour 0 = (k : Int) * (((60 : Nat) : Int) * 60) :=
  claim_C4 0 7200 60 (by norm_num) 3600 (by
    have h1 : nextNormalizedTimeForResolution 0 60 = 3600 := by
      rw [nextNormalizedTime_eq 0 60 (by norm_num)]
      norm_num [floorToHour]
    rw [expectedTimestamps, h1, expectedFrom,
      dif_pos (by norm_num : (0 : Nat) < 60 ∧ (3600 : Int) < 7200)]
    rfl)

/-- C5: the step function returns the least `floor_to_hour(t) + k·r·60`
with `k ≥ 1` strictly greater than `t`, and in the enumerator every yield
after the first is the step function applied to the previous yield (hence
re-anchored to that yield's hour floor). -/
theorem claim_C5 (t : Int) (r : Nat) (hr : 0 < r) :
    t < nextNormalizedTimeForResolution t r ∧
    (∃ k : Nat, 1 ≤ k ∧
      nextNormalizedTimeForResolution t r = floorToHour t + (k : Int) * ((r : Int) * 60)) ∧
    (∀ k : Nat, 1 ≤ k → t < floorToHour t + (k : Int) * ((r : Int) * 60) →
      nextNormalizedTimeForResolution t r ≤ floorToHour t + (k : Int) * ((r : Int) * 60)) ∧
    (∀ fromT toT : Int, List.Chain'
      (fun a b => b = nextNormalizedTimeForResolution a r)
      (expectedTimestamps fromT toT r)) := by
  refine ⟨nextNormalizedTime_gt t r hr, nextNormalizedTime_anchor t r hr, ?_, ?_⟩
  · intro k hk1 hkgt
    obtain ⟨k0, hk01, hk0⟩ := nextNormalizedTime_anchor t r hr
    have hle := nextNormalizedTime_le t r hr
    have hs : (0 : Int) < (r : Int) * 60 := by positivity
    by_contra hgt
    push_neg at hgt
    have hkk : (k : Int) < (k0 : Int) := by nlinarith [hgt, hk0, hs]
    have h1 : (k : Int) + 1 ≤ (k0 : Int) := by omega
    nlinarith [hk0, hle, hkgt, hs, h1]
  · intro fromT toT
    exact expectedFrom_chain_step toT r _

/-- Witness for C5 at `t = 0`, `r = 60`. -/
theorem claim_C5_witness :
    (0 : Int) < nextNormalizedTimeForResolution 0 60 ∧
    (∃ k : Nat, 1 ≤ k ∧ nextNormalizedTimeForResolution 0 60 =
      floorToHour 0 + (k : Int) * (((60 : Nat) : Int) * 60)) ∧
    (∀ k : Nat, 1 ≤ k → (0 : Int) < floorToHour 0 + (k : Int) * (((60 : Nat) : Int) * 60) →
      nextNormalizedTimeForResolution 0 60 ≤
        floorToHour 0 + (k : Int) * (((60 : Nat) : Int) * 60)) ∧
    (∀ fromT toT : Int, List.Chain'
      (fun a b => b = nextNormalizedTimeForResolution a 60)
      (expectedTimestamps fromT toT 60)) :=
  claim_C5 0 60 (by norm_num)

/-- C9: an empty normalized response yields zero verdicts, whatever the
window and resolution. -/
theorem claim_C9 (fromT toT : Int) (r : Nat) (m : Candles) (hm : m.isEmptyC = true) :
    testApiForPeriod r fromT toT m = [] := by
  rw [testApiForPeriod, if_pos hm]

/-- Witness for C9: the empty map over a two-week window at 60 minutes. -/
theorem claim_C9_witness : testApiForPeriod 60 0 1209600 ([] : Candles) = [] :=
  claim_C9 0 1209600 60 ([] : Candles) rfl

/-- C8: for a non-empty normalized response the auditor emits one verdict
per expected timestamp, in strictly increasing timestamp order, `present`
exactly at keys of the map. -/
theorem claim_C8 (fromT toT : Int) (r : Nat) (hr : 0 < r) (m : Candles)
    (hm : m.isEmptyC = false) :
    (testApiForPeriod r fromT toT m).length = (expectedTimestamps fromT toT r).length ∧
    List.map Prod.fst (testApiForPeriod r fromT toT m) = expectedTimestamps fromT toT r ∧
    List.Chain' (fun a b => a < b) (List.map Prod.fst (testApiForPeriod r fromT toT m)) ∧
    (∀ p ∈ testApiForPeriod r fromT toT m,
      (p.2 = Verdict.present ↔ (m.findC p.1).isSome = true)) := by
  have htest : testApiForPeriod r fromT toT m =
      (expectedTimestamps fromT toT r).map
        (fun t => (t, if (m.findC t).isSome then Verdict.present else Verdict.absent)) := by
    rw [testApiForPeriod, if_neg (by simp [hm]), auditLoop_eq_map, expectedTimestamps]
  have hfst : List.map Prod.fst (testApiForPeriod r fromT toT m) =
      expectedTimestamps fromT toT r := by
    have hcomp : (Prod.fst ∘ fun t : Int =>
        (t, if (m.findC t).isSome then Verdict.present else Verdict.absent)) = id := rfl
    rw [htest, List.map_map, hcomp, List.map_id]
  refine ⟨by rw [htest, List.length_map], hfst, ?_, ?_⟩
  · rw [hfst]
    exact (expectedFrom_chain_lt toT r hr
      (nextNormalizedTimeForResolution fromT r)).imp (fun a b hab => hab.1)
  · intro p hp
    rw [htest] at hp
    obtain ⟨t, htl, rfl⟩ := List.mem_map.mp hp
    by_cases hsome : (m.findC t).isSome = true
    · simp [hsome]
    · simp [hsome]

/-- Witness for C8: one-key map at 3600, window `(0, 7200)`, `r = 60`. -/
theorem claim_C8_witness :
    (testApiForPeriod 60 0 7200 [(3600, dummyCandle)]).length =
      (expectedTimestamps 0 7200 60).length ∧
    List.map Prod.fst (testApiForPeriod 60 0 7200 [(3600, dummyCandle)]) =
      expectedTimestamps 0 7200 60 ∧
    List.Chain' (fun a b => a < b)
      (List.map Prod.fst (testApiForPeriod 60 0 7200 [(3600, dummyCandle)])) ∧
    (∀ p ∈ testApiForPeriod 60 0 7200 [(3600, dummyCandle)],
      (p.2 = Verdict.present ↔ (Candles.findC [(3600, dummyCandle)] p.1).isSome = true)) :=
  claim_C8 0 7200 60 (by norm_num) [(3600, dummyCandle)] rfl

/-- C1 counterexample: at `from = 2024-05-13T10:00Z`,
`to = 12:30Z`, `r = 45`, the yields are 10:45, 11:30, 11:45; the last two
differ by 900 seconds, not `45·60 = 2700`. -/
theorem claim_C1_counterexample :
    expectedTimestamps 1715594400 1715603400 45 =
      [1715597100, 1715599800, 1715600700] ∧
    ¬ List.Chain' (fun a b => b - a = ((45 : Nat) : Int) * 60)
        (expectedTimestamps 1715594400 1715603400 45) := by
  refine ⟨expected_s5_eval, ?_⟩
  rw [expected_s5_eval]
  simp only [List.chain'_cons, List.chain'_singleton]
  norm_num

/-- C1 as amended: consecutive yields are strictly increasing and at most
`r·60` seconds apart; they are exactly `r·60` apart whenever `r`
divides 60 (for other resolutions the gap shrinks at hour boundaries). -/
theorem claim_C1_amended (fromT toT : Int) (r : Nat) (hr : 0 < r) :
    List.Chain' (fun a b => a < b ∧ b ≤ a + (r : Int) * 60)
      (expectedTimestamps fromT toT r) ∧
    (r ∣ 60 → List.Chain' (fun a b => b = a + (r : Int) * 60)
      (expectedTimestamps fromT toT r)) := by
  constructor
  · exact expectedFrom_chain_lt toT r hr _
  · intro hd
    refine expectedFrom_chain_exact toT r hr hd _ ?_
    obtain ⟨k, hk1, hk⟩ := nextNormalizedTime_anchor fromT r hr
    have hdvd : ((r : Int) * 60) ∣ 3600 := by
      obtain ⟨c, hc⟩ := hd
      refine ⟨(c : Int), ?_⟩
      have hc' : (60 : Int) = (r : Int) * (c : Int) := by exact_mod_cast hc
      linear_combination 60 * hc'
    have hfl : floorToHour fromT % ((r : Int) * 60) = 0 := by
      have h36 := floorToHour_emod fromT
      have hee := Int.emod_emod_of_dvd (floorToHour fromT) hdvd
      rw [← hee, h36]
      simp
    rw [hk, Int.add_emod, hfl]
    simp [Int.mul_emod_left, Int.mul_emod_right]

/-- Witness for the amended C1 at `from = 0`, `to = 7200`, `r = 60`. -/
theorem claim_C1_witness :
    List.Chain' (fun a b => a < b ∧ b ≤ a + ((60 : Nat) : Int) * 60)
      (expectedTimestamps 0 7200 60) ∧
    ((60 : Nat) ∣ 60 → List.Chain' (fun a b => b = a + ((60 : Nat) : Int) * 60)
      (expectedTimestamps 0 7200 60)) :=
  claim_C1_amended 0 7200 60 (by norm_num)

/-- C2 counterexample: on scenario S5 the code does not yield
`[10:45, 11:30, 12:15]` (12:15 is epoch 1715602500). -/
theorem claim_C2_counterexample :
    expectedTimestamps 1715594400 1715603400 45 ≠
      [1715597100, 1715599800, 1715602500] := by
  rw [expected_s5_eval]
  decide

/-- C2 as amended: on that window the enumerator yields 10:45, 11:30 and
11:45 — after each yield the step function re-anchors to the hour floor
of that yield, so the 11:00 boundary shifts the grid and 12:15 is never
produced: the third yield is `floor_to_hour(11:30) + 45·60 = 11:45`. -/
theorem claim_C2_amended :
    expectedTimestamps 1715594400 1715603400 45 =
      [1715597100, 1715599800, 1715600700] ∧
    nextNormalizedTimeForResolution 1715599800 45 = 1715600700 ∧
    floorToHour 1715599800 = 1715598000 ∧
    (1715600700 : Int) = 1715598000 + 45 * 60 :=
  ⟨expected_s5_eval, nextNorm_s5_step3, by norm_num [floorToHour], by norm_num⟩

/-- C6 counterexample: a response whose `time` (length 1) is shorter than
its other columns (length 2) normalizes without any error, silently
dropping the second entry of every value column. -/
theorem claim_C6_counterexample :
    rawUnequal.time.length ≠ rawUnequal.close.length ∧
    structuredFromApi rawUnequal = some [(0, ⟨1, 3, 5, 7, 9⟩)] := by
  constructor
  · decide
  · rfl

/-- C6 as amended: the conversion checks no lengths.  It succeeds (no
error of any kind) exactly when every value column is at least as long as
`time`, silently ignoring any surplus entries; when some value column is
shorter than `time` it aborts with an index-out-of-bounds panic
(modelled `none`), not a structured schema error. -/
theorem claim_C6_amended (a : ApiResult) :
    (structuredFromApi a).isSome = true ↔
      (a.time.length ≤ a.close.length ∧ a.time.length ≤ a.open_.length ∧
       a.time.length ≤ a.high.length ∧ a.time.length ≤ a.low.length ∧
       a.time.length ≤ a.volume.length) := by
  rw [structuredFromApi, normFold_isSome]
  constructor
  · intro h
    have hb : ∀ i, i < a.time.length →
        (i < a.close.length ∧ i < a.open_.length ∧ i < a.high.length ∧
         i < a.low.length ∧ i < a.volume.length) :=
      fun i hi => (crossSection_isSome_iff a i).mp (h i hi).2
    have h1 : a.time.length ≤ a.close.length := by
      by_contra hlt
      push_neg at hlt
      exact absurd (hb a.close.length (by omega)).1 (by omega)
    have h2 : a.time.length ≤ a.open_.length := by
      by_contra hlt
      push_neg at hlt
      exact absurd (hb a.open_.length (by omega)).2.1 (by omega)
    have h3 : a.time.length ≤ a.high.length := by
      by_contra hlt
      push_neg at hlt
      exact absurd (hb a.high.length (by omega)).2.2.1 (by omega)
    have h4 : a.time.length ≤ a.low.length := by
      by_contra hlt
      push_neg at hlt
      exact absurd (hb a.low.length (by omega)).2.2.2.1 (by omega)
    have h5 : a.time.length ≤ a.volume.length := by
      by_contra hlt
      push_neg at hlt
      exact absurd (hb a.volume.length (by omega)).2.2.2.2 (by omega)
    exact ⟨h1, h2, h3, h4, h5⟩
  · intro hb i hi
    refine ⟨(get?_isSome_iff a.time i).mpr hi, (crossSection_isSome_iff a i).mpr ?_⟩
    obtain ⟨b1, b2, b3, b4, b5⟩ := hb
    exact ⟨by omega, by omega, by omega, by omega, by omega⟩

/-- Witness for the amended C6, instantiated at the two-candle response. -/
theorem claim_C6_witness :
    (structuredFromApi rawTwo).isSome = true ↔
      (rawTwo.time.length ≤ rawTwo.close.length ∧
       rawTwo.time.length ≤ rawTwo.open_.length ∧
       rawTwo.time.length ≤ rawTwo.high.length ∧
       rawTwo.time.length ≤ rawTwo.low.length ∧
       rawTwo.time.length ≤ rawTwo.volume.length) :=
  claim_C6_amended rawTwo

/-- C7: for equal-length columns, normalization succeeds; its key set is
exactly the set of values of `raw.time`; at any index whose timestamp
does not recur later (in particular at every index when `raw.time` has no
duplicates) the entry at that timestamp is that index's cross-section —
so on duplicates the largest index wins. -/
theorem claim_C7 (a : ApiResult)
    (hc : a.close.length = a.time.length) (ho : a.open_.length = a.time.length)
    (hhi : a.high.length = a.time.length) (hl : a.low.length = a.time.length)
    (hv : a.volume.length = a.time.length) :
    ∃ m : Candles, structuredFromApi a = some m ∧
      (∀ k : Int, k ∈ m.keys ↔ k ∈ a.time) ∧
      (∀ i, ∀ hi : i < a.time.length,
        (∀ j, ∀ hj : j < a.time.length, i < j →
          a.time.get ⟨j, hj⟩ ≠ a.time.get ⟨i, hi⟩) →
        m.findC (a.time.get ⟨i, hi⟩) =
          some ⟨a.close.get ⟨i, by omega⟩, a.open_.get ⟨i, by omega⟩,
                a.high.get ⟨i, by omega⟩, a.low.get ⟨i, by omega⟩,
                a.volume.get ⟨i, by omega⟩⟩) ∧
      (a.time.Nodup → ∀ i, ∀ hi : i < a.time.length,
        m.findC (a.time.get ⟨i, hi⟩) =
          some ⟨a.close.get ⟨i, by omega⟩, a.open_.get ⟨i, by omega⟩,
                a.high.get ⟨i, by omega⟩, a.low.get ⟨i, by omega⟩,
                a.volume.get ⟨i, by omega⟩⟩) := by
  have hcs : ∀ i, i < a.time.length → (crossSection a i).isSome = true := fun i hi =>
    (crossSection_isSome_iff a i).mpr ⟨by omega, by omega, by omega, by omega, by omega⟩
  refine ⟨buildCandles a a.time.length,
    normFold_some a _ (fun i hi => ⟨hi, hcs i hi⟩), ?_, ?_, ?_⟩
  · intro k
    rw [buildCandles_keys a a.time.length k, mem_time_iff a k]
  · intro i hi hlast
    exact buildCandles_lookup_get a hc ho hhi hl hv i hi hlast
  · intro hnd i hi
    refine buildCandles_lookup_get a hc ho hhi hl hv i hi ?_
    intro j hj hij he
    have hji : (⟨j, hj⟩ : Fin a.time.length) = ⟨i, hi⟩ :=
      (List.Nodup.get_inj_iff hnd).mp he
    have : j = i := by
      have := Fin.mk.injEq j hj i hi ▸ hji
      omega
    omega

/-- Witness for C7 at the two-candle response. -/
theorem claim_C7_witness :
    ∃ m : Candles, structuredFromApi rawTwo = some m ∧
      (∀ k : Int, k ∈ m.keys ↔ k ∈ rawTwo.time) ∧
      (∀ i, ∀ hi : i < rawTwo.time.length,
        (∀ j, ∀ hj : j < rawTwo.time.length, i < j →
          rawTwo.time.get ⟨j, hj⟩ ≠ rawTwo.time.get ⟨i, hi⟩) →
        m.findC (rawTwo.time.get ⟨i, hi⟩) =
          some ⟨rawTwo.close.get ⟨i, by simpa [rawTwo] using hi⟩,
                rawTwo.open_.get ⟨i, by simpa [rawTwo] using hi⟩,
                rawTwo.high.get ⟨i, by simpa [rawTwo] using hi⟩,
                rawTwo.low.get ⟨i, by simpa [rawTwo] using hi⟩,
                rawTwo.volume.get ⟨i, by simpa [rawTwo] using hi⟩⟩) ∧
      (rawTwo.time.Nodup → ∀ i, ∀ hi : i < rawTwo.time.length,
        m.findC (rawTwo.time.get ⟨i, hi⟩) =
          some ⟨rawTwo.close.get ⟨i, by simpa [rawTwo] using hi⟩,
                rawTwo.open_.get ⟨i, by simpa [rawTwo] using hi⟩,
                rawTwo.high.get ⟨i, by simpa [rawTwo] using hi⟩,
                rawTwo.low.get ⟨i, by simpa [rawTwo] using hi⟩,
                rawTwo.volume.get ⟨i, by simpa [rawTwo] using hi⟩⟩) :=
  claim_C7 rawTwo rfl rfl rfl rfl rfl

/-- C10: for a positive resolution the step loop terminates (some fuel
returns) with a value strictly beyond its argument — so the bounded audit
loop terminates as well — while for resolution 0 the step loop consumes
any amount of fuel without returning. -/
theorem claim_C10 (t : Int) (r : Nat) (hr : 1 ≤ r) :
    (∃ n v, stepUpFuel n t ((r : Int) * 60) (floorToHour t) = some v ∧ t < v ∧
      v = nextNormalizedTimeForResolution t r) ∧
    (∀ n, stepUpFuel n t (((0 : Nat) : Int) * 60) (floorToHour t) = none) ∧
    (∀ toT : Int, ∀ m : Candles, ∃ n,
      auditLoopFuel n toT r m (nextNormalizedTimeForResolution t r) =
        some (auditLoop toT r m (nextNormalizedTimeForResolution t r))) := by
  have hs : (0 : Int) < (r : Int) * 60 := by positivity
  refine ⟨?_, ?_, ?_⟩
  · obtain ⟨n, hn⟩ := stepUpFuel_some t ((r : Int) * 60) hs (floorToHour t)
    exact ⟨n, _, hn, nextNormalizedTime_gt t r hr, rfl⟩
  · intro n
    rw [show (((0 : Nat) : Int) * 60) = 0 by norm_num]
    exact stepUpFuel_zero_none t n (floorToHour t) (floorToHour_le t)
  · intro toT m
    exact auditLoopFuel_some toT r hr m _

/-- Witness for C10 at `t = 0`, `r = 1`. -/
theorem claim_C10_witness :
    (∃ n v, stepUpFuel n 0 (((1 : Nat) : Int) * 60) (floorToHour 0) = some v ∧
      (0 : Int) < v ∧ v = nextNormalizedTimeForResolution 0 1) ∧
    (∀ n, stepUpFuel n 0 (((0 : Nat) : Int) * 60) (floorToHour 0) = none) ∧
    (∀ toT : Int, ∀ m : Candles, ∃ n,
      auditLoopFuel n toT 1 m (nextNormalizedTimeForResolution 0 1) =
        some (auditLoop toT 1 m (nextNormalizedTimeForResolution 0 1))) :=
  claim_C10 0 1 (by norm_num)
